import Mathlib

/-!
# Verification of the OBIVox NLM core (`src/obivox/src/core/nlm_core.c`)

A shallow embedding of the decision layer of the OBIVox NLM core, together
with theorems settling the specification claims about it.

Modelling conventions:
* C `float` values are modelled as exact rationals (`ℚ`).  At every concrete
  input used in a theorem below, the float computation and the rational
  computation fall in the same branch of every comparison, so the idealization
  is faithful at those points.
* C audio buffers (`float*` plus a length) are modelled as a total function
  `ℕ → ℚ` together with the `uint32_t` sample count; reads past the declared
  length simply read the function, mirroring the fact that the C code would
  read adjacent memory.
* `uint32_t` arithmetic that can wrap is modelled with an explicit `% 2 ^ 32`.
* Nullable C pointers that the code tests are modelled with `Option`.
-/

set_option maxHeartbeats 1000000
set_option maxRecDepth 8000

open scoped goldenRatio

namespace Obivox

/-- `PhoneticAccessibility` from `nlm_framwork.h` (the dialect-marker array is
never read or written by the functions modelled here and is omitted). -/
structure PhoneticAccessibility where
  lisp_mitigation : Bool
  stutter_detection : Bool
  accent_normalization : Bool
  variation_tolerance : ℚ
  phenomenological_integrity : ℚ
  experiential_authenticity : ℚ
  deriving Repr, DecidableEq

/-- `NLMCoordinate` from `nlm_framwork.h`. -/
structure NLMCoordinate where
  x_axis : ℚ
  y_axis : ℚ
  z_axis : ℚ
  confidence : ℚ
  deriving Repr, DecidableEq

/-- `TreeMode` from `nlm_framwork.h`: `TREE_MODE_AVL` (strict),
`TREE_MODE_RB` (relaxed), `TREE_MODE_HYBRID`. -/
inductive TreeMode where
  | avl
  | rb
  | hybrid
  deriving Repr, DecidableEq

/-- The fields of `OBIVoxNLMSystem` that the modelled functions read or
write.  `codec_engine.last_confidence` is inlined as `last_confidence`;
the opaque codec/FFmpeg handles and the service-tree pointer carry no
decision logic and are omitted. -/
structure OBIVoxNLMSystem where
  current_position : NLMCoordinate
  accessibility : PhoneticAccessibility
  current_tree_mode : TreeMode
  drift_magnitude : ℚ
  coherence_threshold : ℚ
  fault_tolerance_enabled : Bool
  recovery_attempts : ℕ
  last_confidence : ℚ
  deriving Repr, DecidableEq

/-- `obivox_nlm_init` (`nlm_core.c:18-57`): the freshly initialized system.
`calloc` zeroes every field not explicitly set, in particular
`drift_magnitude = 0`. -/
def obivox_nlm_init : OBIVoxNLMSystem where
  current_position := { x_axis := 0, y_axis := 0, z_axis := 0.5, confidence := 0.954 }
  accessibility :=
    { lisp_mitigation := true
      stutter_detection := true
      accent_normalization := false
      variation_tolerance := 0.7
      phenomenological_integrity := 0.95
      experiential_authenticity := 0.95 }
  current_tree_mode := .hybrid
  drift_magnitude := 0
  coherence_threshold := 0.954
  fault_tolerance_enabled := true
  recovery_attempts := 0
  last_confidence := 0

/-! ## Speech variation detection (`obivox_detect_speech_variations`, lines 63-118) -/

/-- The zero-crossing count of `nlm_core.c:77-81`: the number of
`i ∈ [1, num_samples)` with `(audio[i] > 0) != (audio[i-1] > 0)`. -/
def zcrCount (audio : ℕ → ℚ) (num_samples : ℕ) : ℕ :=
  ((List.range' 1 (num_samples - 1)).filter
    (fun i => decide ((0 < audio i) ≠ (0 < audio (i - 1))))).length

/-- `zero_crossing_rate` after the division by `num_samples`
(`nlm_core.c:82`).  For `num_samples = 0` the C code divides by zero; in `ℚ`
the result is `0` (no claim touches that input). -/
def zero_crossing_rate (audio : ℕ → ℚ) (num_samples : ℕ) : ℚ :=
  (zcrCount audio num_samples : ℚ) / num_samples

/-- The stutter loop bound `num_samples - window_size` of `nlm_core.c:92`,
computed in `uint32_t` arithmetic: for `num_samples < 1024` the subtraction
wraps around `2 ^ 32`. -/
def stutterLoopEnd (num_samples : ℕ) : ℕ :=
  (num_samples + 2 ^ 32 - 1024) % 2 ^ 32

/-- The window start positions visited by the stutter loop of
`nlm_core.c:92`: `i = 1024, 1536, 2048, ...` while `i < stutterLoopEnd`. -/
def stutterWindows (num_samples : ℕ) : List ℕ :=
  (List.range ((stutterLoopEnd num_samples - 1024 + 511) / 512)).map
    (fun k => 1024 + 512 * k)

/-- The window correlation of `nlm_core.c:93-96`:
`Σ_{j<1024} audio[i+j] * audio[i-1024+j]`. -/
def correlation (audio : ℕ → ℚ) (i : ℕ) : ℚ :=
  ((List.range 1024).map (fun j => audio (i + j) * audio (i - 1024 + j))).sum

/-- `repetition_score` (`nlm_core.c:90-100`): the number of windows whose
correlation exceeds `0.8`, as a rational (the C code sums `1.0f`
increments). -/
def repetition_score (audio : ℕ → ℚ) (num_samples : ℕ) : ℚ :=
  (((stutterWindows num_samples).filter
    (fun i => decide (correlation audio i > 0.8))).length : ℚ)

/-- Result of the detector: the updated accessibility profile and the
`*variation_score` output. -/
structure DetectOutput where
  accessibility : PhoneticAccessibility
  variation_score : ℚ
  deriving Repr, DecidableEq

/-- The body of `obivox_detect_speech_variations` (`nlm_core.c:63-118`) once
the null-pointer guard has passed. -/
def detectCore (audio : ℕ → ℚ) (num_samples : ℕ)
    (acc : PhoneticAccessibility) : DetectOutput :=
  let zcr := zero_crossing_rate audio num_samples
  -- line 85-87: high ZCR sets (never clears) the lisp flag
  let acc1 := if zcr > 0.4 then { acc with lisp_mitigation := true } else acc
  let rep := repetition_score audio num_samples
  -- line 102-104: high repetition sets (never clears) the stutter flag
  let acc2 := if rep > 3 then { acc1 with stutter_detection := true } else acc1
  -- line 107-109
  let score := zcr * 0.3 + rep * 0.1 + acc2.variation_tolerance * 0.6
  -- line 112-115
  let acc3 :=
    if score > 0.5 ∧ acc2.phenomenological_integrity > 0.9 then
      { acc2 with accent_normalization := false }
    else acc2
  { accessibility := acc3, variation_score := score }

/-- `obivox_detect_speech_variations` including its null-pointer guard
(`nlm_core.c:69`): `none` models the `-1` return for a null `audio` or
`accessibility` pointer (the `variation_score` out-pointer is modelled by the
returned value).  Note there is no guard on `num_samples`. -/
def obivox_detect_speech_variations (audio : Option (ℕ → ℚ)) (num_samples : ℕ)
    (acc : Option PhoneticAccessibility) : Option DetectOutput :=
  match audio, acc with
  | some a, some p => some (detectCore a num_samples p)
  | _, _ => none

/-! ## Phonetic normalization (`obivox_apply_phonetic_normalization`, lines 120-158) -/

/-- Pointwise in-place store `audio[i] = v`. -/
def updAt (a : ℕ → ℚ) (i : ℕ) (v : ℚ) : ℕ → ℚ :=
  fun m => if m = i then v else a m

/-- The lisp-mitigation pass (`nlm_core.c:132-138`): a sequential in-place
sweep `audio[i] -= (audio[i] - audio[i-1]) * 0.2 * (1 - preservation_factor)`
for `i = 0, ..., num_samples - 1`, skipping `i = 0`; each step reads the
already-updated `audio[i-1]`. -/
def lispPass (audio : ℕ → ℚ) (num_samples : ℕ) (pf : ℚ) : ℕ → ℚ :=
  (List.range num_samples).foldl
    (fun a i =>
      if 0 < i then updAt a i (a i - (a i - a (i - 1)) * 0.2 * (1 - pf)) else a)
    audio

/-- The loop bound `num_samples - smooth_window` of `nlm_core.c:144` in
`uint32_t` arithmetic (`smooth_window = 512`). -/
def stutterEnd32 (num_samples : ℕ) : ℕ :=
  (num_samples + 2 ^ 32 - 512) % 2 ^ 32

/-- The moving average of `nlm_core.c:145-149`: the sum of the 513 samples
`audio[i-256], ..., audio[i+256]` divided by `512`. -/
def windowAvg (a : ℕ → ℚ) (i : ℕ) : ℚ :=
  ((List.range 513).map (fun j => a (i - 256 + j))).sum / 512

/-- The stutter-smoothing pass (`nlm_core.c:143-154`): for
`i = 512, ..., (num_samples - 512) - 1` (in increasing order, in place)
`audio[i] = audio[i] * pf + avg * (1 - pf)` where `avg` is the moving
average of the current (partially updated) buffer. -/
def stutterPass (audio : ℕ → ℚ) (num_samples : ℕ) (pf : ℚ) : ℕ → ℚ :=
  (List.range' 512 (stutterEnd32 num_samples - 512)).foldl
    (fun a i => updAt a i (a i * pf + windowAvg a i * (1 - pf)))
    audio

/-- `obivox_apply_phonetic_normalization` (`nlm_core.c:120-158`): both passes
are guarded by their profile flag and by `preservation_factor < 1.0`. -/
def obivox_apply_phonetic_normalization (audio : ℕ → ℚ) (num_samples : ℕ)
    (acc : PhoneticAccessibility) (preservation_factor : ℚ) : ℕ → ℚ :=
  let a1 :=
    if acc.lisp_mitigation && decide (preservation_factor < 1) then
      lispPass audio num_samples preservation_factor
    else audio
  if acc.stutter_detection && decide (preservation_factor < 1) then
    stutterPass a1 num_samples preservation_factor
  else a1

/-! ## Coordinate mapping (`obivox_map_to_nlm_space`, lines 164-203) -/

/-- The fields of `AudioFeatures` read by `obivox_map_to_nlm_space`: the
256-bin pitch contour and energy envelope, and the precomputed variation
score (`features->variations.variation_score`). -/
structure AudioFeatures where
  pitch_contour : ℕ → ℚ
  energy_envelope : ℕ → ℚ
  variation_score : ℚ

/-- `obivox_map_to_nlm_space` (`nlm_core.c:164-203`).  The libm `tanhf` is
transcendental and is modelled as an uninterpreted parameter `tanh`; the
confidence computation (line 200) does not involve it.  Note line 200
multiplies by the literal constant `0.954f`, not by any system threshold:
the function does not receive the system at all. -/
def obivox_map_to_nlm_space (tanh : ℚ → ℚ) (features : AudioFeatures) :
    NLMCoordinate :=
  let pitch_variance :=
    (((List.range' 1 255).map
      (fun i => (features.pitch_contour i - features.pitch_contour (i - 1)) ^ 2)).sum) / 256
  let energy_mean := (((List.range 256).map features.energy_envelope).sum) / 256
  { x_axis := 1 - 2 * tanh pitch_variance
    y_axis := tanh (energy_mean * 2)
    z_axis := features.variation_score
    confidence := 0.954 * (1 - features.variation_score * 0.1) }

/-! ## Drift handling (`obivox_handle_drift`, lines 316-358) -/

/-- The three OBIAI failure zones of the drift state machine. -/
inductive FailureZone where
  | green
  | ai_stress
  | human_stress
  deriving Repr, DecidableEq

/-- The zone selected by the branch structure of `obivox_handle_drift`
(`nlm_core.c:327-353`): `failure_magnitude = drift * 24 - 12`;
`< -3` is the AI-stress branch, `> 3` the human-stress branch, otherwise
the green branch. -/
def driftZone (drift_detected : ℚ) : FailureZone :=
  let failure_magnitude := drift_detected * 24 - 12
  if failure_magnitude < -3 then .ai_stress
  else if failure_magnitude > 3 then .human_stress
  else .green

/-- `obivox_handle_drift` (`nlm_core.c:316-358`): returns the updated system
and the `*should_cascade` output.  The human-stress branch builds a local
`HumanFeedback` record that is discarded (lines 342-344); no field of the
system records it.  Line 355 stores `drift_detected` into
`drift_magnitude` on every path. -/
def obivox_handle_drift (sys : OBIVoxNLMSystem) (drift_detected : ℚ) :
    OBIVoxNLMSystem × Bool :=
  let failure_magnitude := drift_detected * 24 - 12
  if failure_magnitude < -3 then
    ({ sys with
        current_tree_mode := .rb
        coherence_threshold := 0.85
        drift_magnitude := drift_detected }, true)
  else if failure_magnitude > 3 then
    ({ sys with
        current_tree_mode := .avl
        drift_magnitude := drift_detected }, false)
  else
    ({ sys with
        current_tree_mode := .hybrid
        coherence_threshold := 0.954
        drift_magnitude := drift_detected }, false)

/-- The drift-handling prologue of `obivox_bidirectional_convert`
(`nlm_core.c:219-229`): when `drift_magnitude > 0.3`, run
`obivox_handle_drift` on the current magnitude and, if it requested a
cascade and `recovery_attempts < 3`, perform one self-healing attempt
(increment `recovery_attempts`, re-enable fault tolerance).  Returns the
updated system and the `should_cascade` flag of this cycle (`false` when
the drift gate did not fire). -/
def obivox_drift_cycle (sys : OBIVoxNLMSystem) : OBIVoxNLMSystem × Bool :=
  if sys.drift_magnitude > 0.3 then
    let r := obivox_handle_drift sys sys.drift_magnitude
    if r.2 && decide (r.1.recovery_attempts < 3) then
      ({ r.1 with
          recovery_attempts := r.1.recovery_attempts + 1
          fault_tolerance_enabled := true }, r.2)
    else r
  else (sys, false)

/-! ## Human-in-the-loop (`obivox_request_human_validation`,
`obivox_incorporate_feedback`, lines 364-410) -/

/-- `HumanFeedback` from `nlm_framwork.h`; the two `char*` fields are
nullable strings. -/
structure HumanFeedback where
  requires_confirmation : Bool
  confidence_threshold : ℚ
  suggested_correction : Option String
  original_interpretation : Option String
  deriving Repr, DecidableEq

/-- `obivox_request_human_validation` (`nlm_core.c:364-382`) for non-null
arguments: the produced feedback record and the `int` return value.
Line 375 `calloc`s a non-null empty suggestion buffer, modelled as
`some ""`. -/
def obivox_request_human_validation (transcription : String)
    (confidence : ℚ) : HumanFeedback × Int :=
  let fb : HumanFeedback :=
    { requires_confirmation := decide (confidence < 0.85)
      confidence_threshold := 0.954
      suggested_correction := some ""
      original_interpretation := some transcription }
  (fb, if fb.requires_confirmation then 1 else 0)

/-- `obivox_incorporate_feedback` (`nlm_core.c:384-410`) for non-null
arguments: with a non-null `suggested_correction` the coordinate is nudged
(`y += 0.1`, `z += 0.05`, each truncated back to `1.0` when it exceeds
`1.0`); on every path `drift_magnitude` and `recovery_attempts` are
reset to `0`. -/
def obivox_incorporate_feedback (sys : OBIVoxNLMSystem)
    (fb : HumanFeedback) : OBIVoxNLMSystem :=
  let sys1 :=
    match fb.suggested_correction with
    | some _ =>
      let y1 := sys.current_position.y_axis + 0.1
      let y2 := if y1 > 1 then 1 else y1
      let z1 := sys.current_position.z_axis + 0.05
      let z2 := if z1 > 1 then 1 else z1
      { sys with
          current_position :=
            { sys.current_position with y_axis := y2, z_axis := z2 } }
    | none => sys
  { sys1 with drift_magnitude := 0, recovery_attempts := 0 }

/-! ## Concrete instances used by the claim theorems -/

/-- One drift-handling cycle, keeping only the system (used to iterate). -/
def driftStep (sys : OBIVoxNLMSystem) : OBIVoxNLMSystem :=
  (obivox_drift_cycle sys).1

/-- A freshly initialized system whose observed drift magnitude is `0.35`
(inside the AI-stress zone: `0.35 * 24 - 12 = -3.6 < -3`, and above the
`0.3` gate of `obivox_bidirectional_convert`). -/
def aiDriftSystem : OBIVoxNLMSystem :=
  { obivox_nlm_init with drift_magnitude := 0.35 }

/-- The state reached from `aiDriftSystem` after AI-stress cycles:
Relaxed tree mode, lowered threshold, `recovery_attempts = k`. -/
def aiStressed (k : ℕ) : OBIVoxNLMSystem :=
  { obivox_nlm_init with
      drift_magnitude := 0.35
      current_tree_mode := .rb
      coherence_threshold := 0.85
      recovery_attempts := k }

/-- The all-zero audio buffer. -/
def zeroAudio : ℕ → ℚ := fun _ => 0

/-- The constant-one audio buffer (its 513-sample moving average is
`513/512 ≠ 1`, so the stutter blend visibly differs from the original). -/
def onesAudio : ℕ → ℚ := fun _ => 1

/-- A profile with only the stutter flag set (isolates the stutter pass of
the normalizer). -/
def stutterOnlyProfile : PhoneticAccessibility :=
  { lisp_mitigation := false
    stutter_detection := true
    accent_normalization := false
    variation_tolerance := 0.7
    phenomenological_integrity := 0.95
    experiential_authenticity := 0.95 }

/-- Modelled from the spec: the replacement value the C6 claim predicts for
an interior sample `i`, `factor * original + (1 - factor) * moving_average_512`
over the original buffer. -/
def specStutterBlend (audio : ℕ → ℚ) (pf : ℚ) (i : ℕ) : ℚ :=
  audio i * pf + windowAvg audio i * (1 - pf)

/-- Features that are identically zero (variation score 0). -/
def zeroFeatures : AudioFeatures :=
  { pitch_contour := fun _ => 0, energy_envelope := fun _ => 0
    variation_score := 0 }

/-- A system whose coordinate sits at `y = 0.9`, `z = 0.99` (the starting
point of the C7 scenario). -/
def c7System : OBIVoxNLMSystem :=
  { obivox_nlm_init with
      current_position :=
        { x_axis := 0, y_axis := 0.9, z_axis := 0.99, confidence := 0.954 } }

/-- The accessibility profile after the initial system setup followed by an
arbitrary sequence of detector calls (the detector is the only modelled
operation that writes the profile flags: the normalizer takes the profile
`const`, and neither drift handling nor feedback incorporation touches it). -/
def flagsAfter (inputs : List ((ℕ → ℚ) × ℕ)) : PhoneticAccessibility :=
  inputs.foldl (fun acc p => (detectCore p.1 p.2 acc).accessibility)
    obivox_nlm_init.accessibility

/-! ## NLM-Atlas discovery tree (claim C9)

The repository declares the `NLMAtlasNode` structure
(`nlm_framwork.h:50-73`) with a `TreeMode` tag, an AVL `height` field and a
red/black `color` field, but contains no implementation of the tree
operations.  The two balancing disciplines are therefore modelled from the
spec (section 4.4): Strict mode is a height-balanced (AVL) tree, Relaxed
mode a color-balanced (red-black) tree, both with standard functional
inserts. -/

/-- Modelled from the spec: the Strict-mode (height-balanced / AVL)
discovery tree, whose insert/rebalance implementation is missing from the
repository sources.  Keys stand in for the `(service, operation)` ordering;
balancing is independent of the key type. -/
inductive AVL where
  | leaf : AVL
  | node : AVL → ℕ → AVL → AVL
  deriving Repr, DecidableEq

namespace AVL

/-- Height of a Strict-mode tree (0 for the empty tree). -/
def height : AVL → ℕ
  | .leaf => 0
  | .node l _ r => max l.height r.height + 1

/-- Number of nodes. -/
def size : AVL → ℕ
  | .leaf => 0
  | .node l _ r => l.size + r.size + 1

/-- The AVL balance invariant: at every node the childrens' heights differ
by at most one. -/
def isAvl : AVL → Bool
  | .leaf => true
  | .node l _ r =>
    isAvl l && isAvl r && decide (l.height ≤ r.height + 1) &&
      decide (r.height ≤ l.height + 1)

/-- Modelled from the spec: rebalancing after an insertion into the left
subtree (single or double rotation when the left side is two higher). -/
def balL (l : AVL) (k : ℕ) (r : AVL) : AVL :=
  if l.height = r.height + 2 then
    match l with
    | .node ll lk lr =>
      if lr.height ≤ ll.height then .node ll lk (.node lr k r)
      else
        match lr with
        | .node lrl lrk lrr => .node (.node ll lk lrl) lrk (.node lrr k r)
        | .leaf => .node (.node ll lk lr) k r
    | .leaf => .node .leaf k r
  else .node l k r

/-- Modelled from the spec: rebalancing after an insertion into the right
subtree (mirror image of `balL`). -/
def balR (l : AVL) (k : ℕ) (r : AVL) : AVL :=
  if r.height = l.height + 2 then
    match r with
    | .node rl rk rr =>
      if rl.height ≤ rr.height then .node (.node l k rl) rk rr
      else
        match rl with
        | .node rll rlk rlr => .node (.node l k rll) rlk (.node rlr rk rr)
        | .leaf => .node l k (.node rl rk rr)
    | .leaf => .node l k .leaf
  else .node l k r

/-- Modelled from the spec: Strict-mode `insert(node)` — standard AVL
insertion, rebalancing on the way up. -/
def insert (x : ℕ) : AVL → AVL
  | .leaf => .node .leaf x .leaf
  | .node l k r =>
    if x < k then balL (insert x l) k r
    else if k < x then balR l k (insert x r)
    else .node l k r

/-- The Strict-mode tree obtained by inserting a sequence of keys into the
empty tree. -/
def insertList (ks : List ℕ) : AVL :=
  ks.foldl (fun t x => insert x t) .leaf

end AVL

/-- Node colors of the Relaxed-mode (red-black) tree, as in the `color`
field of `NLMAtlasNode`. -/
inductive RBColor where
  | red
  | black
  deriving Repr, DecidableEq

/-- Modelled from the spec: the Relaxed-mode (color-balanced / red-black)
discovery tree, whose insert/rebalance implementation is missing from the
repository sources. -/
inductive RBT where
  | nil : RBT
  | node : RBColor → RBT → ℕ → RBT → RBT
  deriving Repr, DecidableEq

namespace RBT

/-- Modelled from the spec: Okasaki-style rebalancing of a black node whose
left subtree may carry a red-red violation at its top. -/
def balanceL : RBT → ℕ → RBT → RBT
  | .node .red (.node .red a x b) y c, k, d =>
    .node .red (.node .black a x b) y (.node .black c k d)
  | .node .red a x (.node .red b y c), k, d =>
    .node .red (.node .black a x b) y (.node .black c k d)
  | l, k, r => .node .black l k r

/-- Modelled from the spec: mirror image of `balanceL` for the right
subtree. -/
def balanceR : RBT → ℕ → RBT → RBT
  | a, x, .node .red (.node .red b y c) z d =>
    .node .red (.node .black a x b) y (.node .black c z d)
  | a, x, .node .red b y (.node .red c z d) =>
    .node .red (.node .black a x b) y (.node .black c z d)
  | l, k, r => .node .black l k r

/-- Modelled from the spec: the recursive insertion worker (may leave a
red-red violation at the root, fixed by `blacken`). -/
def ins (x : ℕ) : RBT → RBT
  | .nil => .node .red .nil x .nil
  | .node .black l k r =>
    if x < k then balanceL (ins x l) k r
    else if k < x then balanceR l k (ins x r)
    else .node .black l k r
  | .node .red l k r =>
    if x < k then .node .red (ins x l) k r
    else if k < x then .node .red l k (ins x r)
    else .node .red l k r

/-- Recolor the root black. -/
def blacken : RBT → RBT
  | .nil => .nil
  | .node _ l k r => .node .black l k r

/-- Modelled from the spec: Relaxed-mode `insert(node)` — standard
functional red-black insertion. -/
def rbInsert (x : ℕ) (t : RBT) : RBT := blacken (ins x t)

/-- The Relaxed-mode tree obtained by inserting a sequence of keys into the
empty tree. -/
def rbInsertList (ks : List ℕ) : RBT :=
  ks.foldl (fun t x => rbInsert x t) .nil

/-- Color of a tree's root (`nil` counts as black). -/
def colorOf : RBT → RBColor
  | .nil => .black
  | .node c _ _ _ => c

/-- The claimed path property: no red node has a red child, hence no
root-to-leaf path contains two consecutive red nodes. -/
def noRedRed : RBT → Bool
  | .nil => true
  | .node .red l _ r =>
    decide (colorOf l = .black) && decide (colorOf r = .black) &&
      noRedRed l && noRedRed r
  | .node .black l _ r => noRedRed l && noRedRed r

/-- The common black-height of all paths from the root, or `none` if some
node has children of differing black-heights; `isSome` states the claimed
equal-black-height property at every node. -/
def blackHeight : RBT → Option ℕ
  | .nil => some 0
  | .node c l _ r =>
    match blackHeight l, blackHeight r with
    | some m, some n =>
      if m = n then some (m + (if c = .black then 1 else 0)) else none
    | _, _ => none

/-- The red-black validity relation, indexed by the color of the parent
(`RB t c n`: `t` is a valid subtree of black-height `n` under a `c`-colored
parent; a red node is only valid under a black parent). -/
inductive RB : RBT → RBColor → ℕ → Prop where
  | nil (c : RBColor) : RB .nil c 0
  | red {l r : RBT} {k n : ℕ} :
      RB l .red n → RB r .red n → RB (.node .red l k r) .black n
  | black {l r : RBT} {k n : ℕ} (c : RBColor) :
      RB l .black n → RB r .black n → RB (.node .black l k r) c (n + 1)

/-- Near-validity of an insertion intermediate: either valid under a black
parent, or a red root whose children are merely valid under a black
parent (one possible red-red violation at the root). -/
inductive NearRB : RBT → ℕ → Prop where
  | ok {t : RBT} {n : ℕ} : RB t .black n → NearRB t n
  | red {l r : RBT} {k n : ℕ} :
      RB l .black n → RB r .black n → NearRB (.node .red l k r) n

end RBT

/-! ## Helper lemmas -/

/-- A fold of in-place stores leaves every index outside the store list
unchanged. -/
theorem foldl_updAt_frame (f : (ℕ → ℚ) → ℕ → ℚ) :
    ∀ (l : List ℕ) (a : ℕ → ℚ) (k : ℕ), k ∉ l →
      (l.foldl (fun a i => updAt a i (f a i)) a) k = a k
  | [], _, _, _ => rfl
  | i :: l, a, k, h => by
    have hki : k ≠ i := fun e => h (e ▸ List.mem_cons_self i l)
    have hkl : k ∉ l := fun e => h (List.mem_cons_of_mem _ e)
    rw [List.foldl_cons, foldl_updAt_frame f l _ k hkl]
    simp [updAt, hki]

/-- For in-range buffer lengths the `uint32_t` loop bound of the stutter pass
is the plain subtraction. -/
theorem stutterEnd32_eq {n : ℕ} (h1 : 512 ≤ n) (h2 : n < 2 ^ 32) :
    stutterEnd32 n = n - 512 := by
  unfold stutterEnd32
  omega

/-- The stutter pass never writes an index below `512` or at/above the loop
bound. -/
theorem stutterPass_frame (audio : ℕ → ℚ) (n : ℕ) (pf : ℚ) (k : ℕ)
    (h : k < 512 ∨ stutterEnd32 n ≤ k) :
    stutterPass audio n pf k = audio k := by
  apply foldl_updAt_frame
  intro hmem
  rw [List.mem_range'_1] at hmem
  omega

/-- The first interior index `512` is replaced by the blend computed over the
original buffer (no earlier iteration has modified the window
`[256, 768]`). -/
theorem stutterPass_first (audio : ℕ → ℚ) (n : ℕ) (pf : ℚ)
    (h1 : 1025 ≤ n) (h2 : n < 2 ^ 32) :
    stutterPass audio n pf 512 =
      audio 512 * pf + windowAvg audio 512 * (1 - pf) := by
  have he : stutterEnd32 n - 512 = (n - 1025) + 1 := by
    unfold stutterEnd32; omega
  unfold stutterPass
  rw [he, List.range'_succ, List.foldl_cons]
  have := foldl_updAt_frame (fun a i => a i * pf + windowAvg a i * (1 - pf))
    (List.range' 513 (n - 1025))
    (updAt audio 512 (audio 512 * pf + windowAvg audio 512 * (1 - pf))) 512
    (by intro hmem; rw [List.mem_range'_1] at hmem; omega)
  rw [this]
  simp [updAt]

/-- With only the stutter flag set and `preservation_factor < 1` the
normalizer is exactly the stutter pass. -/
theorem normalization_stutterOnly (audio : ℕ → ℚ) (n : ℕ) (pf : ℚ)
    (h : pf < 1) :
    obivox_apply_phonetic_normalization audio n stutterOnlyProfile pf =
      stutterPass audio n pf := by
  simp [obivox_apply_phonetic_normalization, stutterOnlyProfile, h]

/-- Summing a constant `1` over `List.range n` gives `n`. -/
theorem sum_map_one : ∀ n : ℕ, (((List.range n).map (fun _ => (1 : ℚ))).sum) = n
  | 0 => rfl
  | n + 1 => by
    rw [List.range_succ, List.map_append, List.sum_append, sum_map_one n]
    push_cast
    simp

/-- The detector's effect on the two flags: each is OR-ed with its trigger
condition (set, never cleared). -/
theorem detectCore_flags (a : ℕ → ℚ) (n : ℕ) (acc : PhoneticAccessibility) :
    (detectCore a n acc).accessibility.lisp_mitigation =
      (acc.lisp_mitigation || decide (zero_crossing_rate a n > 0.4)) ∧
    (detectCore a n acc).accessibility.stutter_detection =
      (acc.stutter_detection || decide (repetition_score a n > 3)) := by
  simp only [detectCore]
  split_ifs <;> simp_all

/-- Folding detector calls preserves flags that are already set. -/
theorem flagsAfter_aux :
    ∀ (inputs : List ((ℕ → ℚ) × ℕ)) (acc : PhoneticAccessibility),
      acc.lisp_mitigation = true → acc.stutter_detection = true →
      ((inputs.foldl (fun acc p => (detectCore p.1 p.2 acc).accessibility)
          acc).lisp_mitigation = true ∧
        (inputs.foldl (fun acc p => (detectCore p.1 p.2 acc).accessibility)
          acc).stutter_detection = true)
  | [], _, hl, hs => ⟨hl, hs⟩
  | p :: l, acc, hl, hs => by
    rw [List.foldl_cons]
    exact flagsAfter_aux l _
      (by rw [(detectCore_flags p.1 p.2 acc).1, hl]; rfl)
      (by rw [(detectCore_flags p.1 p.2 acc).2, hs]; rfl)

namespace AVL

theorem isAvl_node {l r : AVL} {k : ℕ} :
    isAvl (.node l k r) = true ↔
      isAvl l = true ∧ isAvl r = true ∧ l.height ≤ r.height + 1 ∧
        r.height ≤ l.height + 1 := by
  simp [isAvl, Bool.and_eq_true, decide_eq_true_iff, and_assoc]

theorem balL_spec (l : AVL) (k : ℕ) (r : AVL)
    (hl : isAvl l = true) (hr : isAvl r = true)
    (hub : l.height ≤ r.height + 2) (hlb : r.height ≤ l.height + 1) :
    isAvl (balL l k r) = true ∧
    (l.height = r.height + 2 →
      r.height + 2 ≤ (balL l k r).height ∧ (balL l k r).height ≤ r.height + 3) ∧
    (l.height ≠ r.height + 2 →
      (balL l k r).height = max l.height r.height + 1) := by
  by_cases hcase : l.height = r.height + 2
  · rcases l with _ | ⟨ll, lk, lr⟩
    · simp [height] at hcase
    · rw [isAvl_node] at hl
      obtain ⟨hll, hlr, hb1, hb2⟩ := hl
      have hmax : max ll.height lr.height + 1 = r.height + 2 := hcase
      by_cases hrot : lr.height ≤ ll.height
      · -- single rotation
        have e : balL (.node ll lk lr) k r = .node ll lk (.node lr k r) := by
          rw [balL.eq_def, if_pos hcase]
          simp [hrot]
        rw [e]
        refine ⟨?_, fun _ => ?_, fun h => absurd hcase h⟩
        · rw [isAvl_node, isAvl_node]
          simp only [height] at *
          refine ⟨hll, ⟨hlr, hr, by omega, by omega⟩, by omega, by omega⟩
        · simp only [height] at *
          omega
      · -- double rotation
        rcases lr with _ | ⟨lrl, lrk, lrr⟩
        · simp [height] at hrot
        · have e : balL (.node ll lk (.node lrl lrk lrr)) k r =
              .node (.node ll lk lrl) lrk (.node lrr k r) := by
            rw [balL.eq_def, if_pos hcase]
            simp [hrot]
          rw [e]
          rw [isAvl_node] at hlr
          obtain ⟨hlrl, hlrr, hc1, hc2⟩ := hlr
          refine ⟨?_, fun _ => ?_, fun h => absurd hcase h⟩
          · rw [isAvl_node, isAvl_node, isAvl_node]
            simp only [height] at *
            refine ⟨⟨hll, hlrl, by omega, by omega⟩,
              ⟨hlrr, hr, by omega, by omega⟩, by omega, by omega⟩
          · simp only [height] at *
            omega
  · have e : balL l k r = .node l k r := by
      rw [balL.eq_def, if_neg hcase]
    rw [e]
    refine ⟨?_, fun h => absurd h hcase, fun _ => rfl⟩
    rw [isAvl_node]
    exact ⟨hl, hr, by omega, hlb⟩

theorem balR_spec (l : AVL) (k : ℕ) (r : AVL)
    (hl : isAvl l = true) (hr : isAvl r = true)
    (hub : r.height ≤ l.height + 2) (hlb : l.height ≤ r.height + 1) :
    isAvl (balR l k r) = true ∧
    (r.height = l.height + 2 →
      l.height + 2 ≤ (balR l k r).height ∧ (balR l k r).height ≤ l.height + 3) ∧
    (r.height ≠ l.height + 2 →
      (balR l k r).height = max l.height r.height + 1) := by
  by_cases hcase : r.height = l.height + 2
  · rcases r with _ | ⟨rl, rk, rr⟩
    · simp [height] at hcase
    · rw [isAvl_node] at hr
      obtain ⟨hrl, hrr, hb1, hb2⟩ := hr
      by_cases hrot : rl.height ≤ rr.height
      · -- single rotation
        have e : balR l k (.node rl rk rr) = .node (.node l k rl) rk rr := by
          rw [balR.eq_def, if_pos hcase]
          simp [hrot]
        rw [e]
        refine ⟨?_, fun _ => ?_, fun h => absurd hcase h⟩
        · rw [isAvl_node, isAvl_node]
          simp only [height] at *
          refine ⟨⟨hl, hrl, by omega, by omega⟩, hrr, by omega, by omega⟩
        · simp only [height] at *
          omega
      · -- double rotation
        rcases rl with _ | ⟨rll, rlk, rlr⟩
        · simp [height] at hrot
        · have e : balR l k (.node (.node rll rlk rlr) rk rr) =
              .node (.node l k rll) rlk (.node rlr rk rr) := by
            rw [balR.eq_def, if_pos hcase]
            simp [hrot]
          rw [e]
          rw [isAvl_node] at hrl
          obtain ⟨hrll, hrlr, hc1, hc2⟩ := hrl
          refine ⟨?_, fun _ => ?_, fun h => absurd hcase h⟩
          · rw [isAvl_node, isAvl_node, isAvl_node]
            simp only [height] at *
            refine ⟨⟨hl, hrll, by omega, by omega⟩,
              ⟨hrlr, hrr, by omega, by omega⟩, by omega, by omega⟩
          · simp only [height] at *
            omega
  · have e : balR l k r = .node l k r := by
      rw [balR.eq_def, if_neg hcase]
    rw [e]
    refine ⟨?_, fun h => absurd h hcase, fun _ => rfl⟩
    rw [isAvl_node]
    exact ⟨hl, hr, hlb, by omega⟩

theorem insert_avl (x : ℕ) :
    ∀ t : AVL, isAvl t = true →
      isAvl (insert x t) = true ∧
      t.height ≤ (insert x t).height ∧ (insert x t).height ≤ t.height + 1
  | .leaf, _ => by
    refine ⟨?_, by simp [insert, height], by simp [insert, height]⟩
    rw [insert, isAvl_node]
    simp [isAvl, height]
  | .node l k r, ht => by
    rw [isAvl_node] at ht
    obtain ⟨hl, hr, hb1, hb2⟩ := ht
    rcases lt_trichotomy x k with hx | hx | hx
    · have ih := insert_avl x l hl
      obtain ⟨ihl, ihlo, ihhi⟩ := ih
      have e : insert x (.node l k r) = balL (insert x l) k r := by
        rw [insert]
        simp [hx]
      rw [e]
      have spec := balL_spec (insert x l) k r ihl hr (by omega) (by omega)
      obtain ⟨s1, s2, s3⟩ := spec
      refine ⟨s1, ?_, ?_⟩ <;>
      · by_cases hc : (insert x l).height = r.height + 2
        · have := s2 hc
          simp only [height] at *
          omega
        · have := s3 hc
          simp only [height] at *
          omega
    · have e : insert x (.node l k r) = .node l k r := by
        subst hx
        rw [insert]
        simp
      rw [e]
      refine ⟨?_, le_refl _, by omega⟩
      rw [isAvl_node]
      exact ⟨hl, hr, hb1, hb2⟩
    · have ih := insert_avl x r hr
      obtain ⟨ihr, ihlo, ihhi⟩ := ih
      have e : insert x (.node l k r) = balR l k (insert x r) := by
        rw [insert]
        simp [hx, Nat.lt_asymm hx]
      rw [e]
      have spec := balR_spec l k (insert x r) hl ihr (by omega) (by omega)
      obtain ⟨s1, s2, s3⟩ := spec
      refine ⟨s1, ?_, ?_⟩ <;>
      · by_cases hc : (insert x r).height = l.height + 2
        · have := s2 hc
          simp only [height] at *
          omega
        · have := s3 hc
          simp only [height] at *
          omega

theorem size_balL (l : AVL) (k : ℕ) (r : AVL) :
    (balL l k r).size = l.size + r.size + 1 := by
  rw [balL.eq_def]
  split_ifs with h
  · rcases l with _ | ⟨ll, lk, lr⟩
    · rfl
    · by_cases hrot : lr.height ≤ ll.height
      · simp only [hrot, if_true]
        simp [size]
        omega
      · rcases lr with _ | ⟨lrl, lrk, lrr⟩
        · simp only [hrot, if_false]
          simp [size]
        · simp only [hrot, if_false]
          simp [size]
          omega
  · rfl

theorem size_balR (l : AVL) (k : ℕ) (r : AVL) :
    (balR l k r).size = l.size + r.size + 1 := by
  rw [balR.eq_def]
  split_ifs with h
  · rcases r with _ | ⟨rl, rk, rr⟩
    · rfl
    · by_cases hrot : rl.height ≤ rr.height
      · simp only [hrot, if_true]
        simp [size]
        omega
      · rcases rl with _ | ⟨rll, rlk, rlr⟩
        · simp only [hrot, if_false]
          simp [size]
        · simp only [hrot, if_false]
          simp [size]
          omega
  · rfl

theorem size_insert_le (x : ℕ) : ∀ t : AVL, (insert x t).size ≤ t.size + 1
  | .leaf => by simp [insert, size]
  | .node l k r => by
    rcases lt_trichotomy x k with hx | hx | hx
    · have e : insert x (.node l k r) = balL (insert x l) k r := by
        rw [insert]
        simp [hx]
      rw [e, size_balL]
      have := size_insert_le x l
      simp only [size]
      omega
    · have e : insert x (.node l k r) = .node l k r := by
        subst hx
        rw [insert]
        simp
      rw [e]
      omega
    · have e : insert x (.node l k r) = balR l k (insert x r) := by
        rw [insert]
        simp [hx, Nat.lt_asymm hx]
      rw [e, size_balR]
      have := size_insert_le x r
      simp only [size]
      omega

theorem fib_height_le_size : ∀ t : AVL, isAvl t = true →
    Nat.fib (t.height + 2) ≤ t.size + 1
  | .leaf, _ => by simp [height, size]
  | .node l k r, ht => by
    rw [isAvl_node] at ht
    obtain ⟨hl, hr, hb1, hb2⟩ := ht
    have ihl := fib_height_le_size l hl
    have ihr := fib_height_le_size r hr
    simp only [height, size]
    rcases le_total l.height r.height with hcmp | hcmp
    · rw [max_eq_right hcmp]
      have e : Nat.fib (r.height + 1 + 2) =
          Nat.fib (r.height + 1) + Nat.fib (r.height + 2) := Nat.fib_add_two
      have h1 : Nat.fib (r.height + 1) ≤ Nat.fib (l.height + 2) :=
        Nat.fib_mono (by omega)
      omega
    · rw [max_eq_left hcmp]
      have e : Nat.fib (l.height + 1 + 2) =
          Nat.fib (l.height + 1) + Nat.fib (l.height + 2) := Nat.fib_add_two
      have h1 : Nat.fib (l.height + 1) ≤ Nat.fib (r.height + 2) :=
        Nat.fib_mono (by omega)
      omega

theorem insertList_aux :
    ∀ (ks : List ℕ) (t : AVL), isAvl t = true →
      isAvl (ks.foldl (fun t x => insert x t) t) = true ∧
      (ks.foldl (fun t x => insert x t) t).size ≤ t.size + ks.length
  | [], t, ht => ⟨ht, by simp⟩
  | x :: ks, t, ht => by
    rw [List.foldl_cons]
    have h1 := insert_avl x t ht
    have h2 := insertList_aux ks (insert x t) h1.1
    have h3 := size_insert_le x t
    refine ⟨h2.1, ?_⟩
    calc (ks.foldl (fun t x => insert x t) (insert x t)).size
        ≤ (insert x t).size + ks.length := h2.2
      _ ≤ t.size + (x :: ks).length := by simp [List.length_cons]; omega

end AVL

namespace RBT

theorem RB.weaken {t : RBT} {n : ℕ} (h : RB t .red n) : RB t .black n := by
  cases h with
  | nil => exact RB.nil .black
  | black c hl hr => exact RB.black .black hl hr

theorem RB.rootBlack {t : RBT} {n : ℕ} (h : RB t .red n) : colorOf t = .black := by
  cases h <;> rfl

theorem RB.strengthen {t : RBT} {n : ℕ} (h : RB t .black n)
    (hc : colorOf t = .black) : RB t .red n := by
  cases h with
  | nil => exact RB.nil .red
  | red hl hr => exact absurd hc (by simp [colorOf])
  | black c hl hr => exact RB.black .red hl hr

theorem balanceL_rb {l r : RBT} {k n : ℕ} (hl : NearRB l n)
    (hr : RB r .black n) : RB (balanceL l k r) .black (n + 1) := by
  rcases l with _ | ⟨cl, l1, y, l2⟩
  · -- l = nil: default branch
    have h : RB .nil .black n := by
      rcases hl with ⟨h⟩ | _
      exact h
    exact RB.black .black h hr
  · rcases cl with _ | _
    · -- red root
      have hc : RB l1 .black n ∧ RB l2 .black n := by
        rcases hl with ⟨h⟩ | ⟨h1, h2⟩
        · cases h with
          | red ha hb => exact ⟨ha.weaken, hb.weaken⟩
        · exact ⟨‹_›, ‹_›⟩
      obtain ⟨hc1, hc2⟩ := hc
      rcases l1 with _ | ⟨c1, a, x, b⟩
      · rcases l2 with _ | ⟨c2, p, q, w⟩
        · exact RB.black .black
            (RB.red (hc1.strengthen rfl) (hc2.strengthen rfl)) hr
        · rcases c2 with _ | _
          · -- pattern 2
            show RB (.node .red (.node .black .nil y p) q
              (.node .black w k r)) .black (n + 1)
            cases hc2 with
            | red ha hb =>
              exact RB.red (RB.black .red hc1 ha.weaken)
                (RB.black .red hb.weaken hr)
          · exact RB.black .black
              (RB.red (hc1.strengthen rfl) (hc2.strengthen rfl)) hr
      · rcases c1 with _ | _
        · -- pattern 1 (fires whatever shape l2 has)
          cases hc1 with
          | red ha hb =>
            rcases l2 with _ | ⟨c2, p, q, w⟩
            · exact RB.red (RB.black .red ha.weaken hb.weaken)
                (RB.black .red hc2 hr)
            · rcases c2 with _ | _ <;>
                exact RB.red (RB.black .red ha.weaken hb.weaken)
                  (RB.black .red hc2 hr)
        · rcases l2 with _ | ⟨c2, p, q, w⟩
          · exact RB.black .black
              (RB.red (hc1.strengthen rfl) (hc2.strengthen rfl)) hr
          · rcases c2 with _ | _
            · -- pattern 2
              show RB (.node .red (.node .black (.node .black a x b) y p) q
                (.node .black w k r)) .black (n + 1)
              cases hc2 with
              | red ha hb =>
                exact RB.red (RB.black .red hc1 ha.weaken)
                  (RB.black .red hb.weaken hr)
            · exact RB.black .black
                (RB.red (hc1.strengthen rfl) (hc2.strengthen rfl)) hr
    · -- black root: default branch
      have hb : RB (.node .black l1 y l2) .black n := by
        rcases hl with ⟨h⟩ | _
        exact h
      exact RB.black .black hb hr

theorem balanceR_rb {l r : RBT} {k n : ℕ} (hl : RB l .black n)
    (hr : NearRB r n) : RB (balanceR l k r) .black (n + 1) := by
  rcases r with _ | ⟨cr, r1, y, r2⟩
  · have h : RB .nil .black n := by
      rcases hr with ⟨h⟩ | _
      exact h
    exact RB.black .black hl h
  · rcases cr with _ | _
    · -- red root
      have hc : RB r1 .black n ∧ RB r2 .black n := by
        rcases hr with ⟨h⟩ | ⟨h1, h2⟩
        · cases h with
          | red ha hb => exact ⟨ha.weaken, hb.weaken⟩
        · exact ⟨‹_›, ‹_›⟩
      obtain ⟨hc1, hc2⟩ := hc
      rcases r1 with _ | ⟨c1, a, x, b⟩
      · rcases r2 with _ | ⟨c2, p, q, w⟩
        · exact RB.black .black hl
            (RB.red (hc1.strengthen rfl) (hc2.strengthen rfl))
        · rcases c2 with _ | _
          · -- pattern 2
            cases hc2 with
            | red ha hb =>
              exact RB.red (RB.black .red hl hc1)
                (RB.black .red ha.weaken hb.weaken)
          · exact RB.black .black hl
              (RB.red (hc1.strengthen rfl) (hc2.strengthen rfl))
      · rcases c1 with _ | _
        · -- pattern 1 (fires whatever shape r2 has)
          cases hc1 with
          | red ha hb =>
            rcases r2 with _ | ⟨c2, p, q, w⟩
            · exact RB.red (RB.black .red hl ha.weaken)
                (RB.black .red hb.weaken hc2)
            · rcases c2 with _ | _ <;>
                exact RB.red (RB.black .red hl ha.weaken)
                  (RB.black .red hb.weaken hc2)
        · rcases r2 with _ | ⟨c2, p, q, w⟩
          · exact RB.black .black hl
              (RB.red (hc1.strengthen rfl) (hc2.strengthen rfl))
          · rcases c2 with _ | _
            · -- pattern 2
              cases hc2 with
              | red ha hb =>
                exact RB.red (RB.black .red hl hc1)
                  (RB.black .red ha.weaken hb.weaken)
            · exact RB.black .black hl
                (RB.red (hc1.strengthen rfl) (hc2.strengthen rfl))
    · -- black root: default branch
      have hb : RB (.node .black r1 y r2) .black n := by
        rcases hr with ⟨h⟩ | _
        exact h
      exact RB.black .black hl hb

theorem ins_rb (x : ℕ) : ∀ (t : RBT) (n : ℕ),
    (RB t .black n → NearRB (ins x t) n) ∧
    (RB t .red n → RB (ins x t) .black n)
  | .nil, n => by
    constructor
    · intro h
      cases h
      exact NearRB.red (RB.nil .black) (RB.nil .black)
    · intro h
      cases h
      exact RB.red (RB.nil .red) (RB.nil .red)
  | .node .black l k r, n => by
    constructor
    · intro h
      cases h with
      | black c hl hr =>
        refine NearRB.ok ?_
        simp only [ins]
        split_ifs with h1 h2
        · exact balanceL_rb ((ins_rb x l _).1 hl) hr
        · exact balanceR_rb hl ((ins_rb x r _).1 hr)
        · exact RB.black .black hl hr
    · intro h
      cases h with
      | black c hl hr =>
        simp only [ins]
        split_ifs with h1 h2
        · exact balanceL_rb ((ins_rb x l _).1 hl) hr
        · exact balanceR_rb hl ((ins_rb x r _).1 hr)
        · exact RB.black .black hl hr
  | .node .red l k r, n => by
    constructor
    · intro h
      cases h with
      | red ha hb =>
        simp only [ins]
        split_ifs with h1 h2
        · exact NearRB.red ((ins_rb x l _).2 ha) hb.weaken
        · exact NearRB.red ha.weaken ((ins_rb x r _).2 hb)
        · exact NearRB.red ha.weaken hb.weaken
    · intro h
      cases h

theorem blacken_rb {t : RBT} {n : ℕ} (h : NearRB t n) :
    ∃ m, RB (blacken t) .black m := by
  rcases h with ⟨h⟩ | ⟨h1, h2⟩
  · cases h with
    | nil => exact ⟨0, RB.nil .black⟩
    | red ha hb => exact ⟨_, RB.black .black ha.weaken hb.weaken⟩
    | black c hl hr => exact ⟨_, RB.black .black hl hr⟩
  · exact ⟨_, RB.black .black h1 h2⟩

theorem rbInsert_rb (x : ℕ) {t : RBT} {n : ℕ} (h : RB t .black n) :
    ∃ m, RB (rbInsert x t) .black m :=
  blacken_rb ((ins_rb x t n).1 h)

theorem rbInsertList_aux :
    ∀ (ks : List ℕ) (t : RBT) (n : ℕ), RB t .black n →
      ∃ m, RB (ks.foldl (fun t x => rbInsert x t) t) .black m
  | [], _, n, h => ⟨n, h⟩
  | x :: ks, t, n, h => by
    rw [List.foldl_cons]
    obtain ⟨m, hm⟩ := rbInsert_rb x h
    exact rbInsertList_aux ks _ m hm

theorem rb_paths {t : RBT} {c : RBColor} {n : ℕ} (h : RB t c n) :
    noRedRed t = true ∧ blackHeight t = some n := by
  induction h with
  | nil c => exact ⟨rfl, rfl⟩
  | red ha hb iha ihb =>
    refine ⟨?_, ?_⟩
    · simp [noRedRed, ha.rootBlack, hb.rootBlack, iha.1, ihb.1]
    · simp only [blackHeight]
      rw [iha.2, ihb.2]
      simp
  | black c hl hr ihl ihr =>
    refine ⟨?_, ?_⟩
    · simp [noRedRed, ihl.1, ihr.1]
    · simp only [blackHeight]
      rw [ihl.2, ihr.2]
      simp

end RBT

/-- A rational lower bound on the golden ratio. -/
theorem goldLB : (809 : ℝ) / 500 ≤ φ := by
  rw [goldenRatio]
  have h5 : (559 / 250 : ℝ) ≤ Real.sqrt 5 := Real.le_sqrt_of_sq_le (by norm_num)
  linarith

/-- `φ ^ 721 ≥ 2 ^ 500`, i.e. `log₂ φ ≥ 500/721` (and `721/500 = 1.442`). -/
theorem goldPow : (2 : ℝ) ^ 500 ≤ φ ^ 721 := by
  have h2 : (2 : ℝ) ^ 500 ≤ ((809 : ℝ) / 500) ^ 721 := by
    rw [div_pow, le_div_iff₀ (by positivity)]
    have h : (2 : ℕ) ^ 500 * 500 ^ 721 ≤ 809 ^ 721 := by norm_num
    have hc := (Nat.cast_le (α := ℝ)).2 h
    push_cast at hc
    exact hc
  exact le_trans h2 (pow_le_pow_left₀ (by norm_num) goldLB 721)

/-- The binary logarithm of the golden ratio is at least `500/721`. -/
theorem logbGold : (500 : ℝ) / 721 ≤ Real.logb 2 φ := by
  have h1 : Real.logb 2 ((2 : ℝ) ^ 500) ≤ Real.logb 2 (φ ^ 721) :=
    Real.logb_le_logb_of_le (by norm_num) (by positivity) goldPow
  rw [Real.logb_pow, Real.logb_pow, Real.logb_self_eq_one (by norm_num)] at h1
  push_cast at h1
  linarith

/-- `fib (h + 2) ≥ φ ^ h`: the minimal size of a height-`h` AVL tree grows
like the golden ratio. -/
theorem goldPowLeFib : ∀ h : ℕ, φ ^ h ≤ (Nat.fib (h + 2) : ℝ)
  | 0 => by norm_num [Nat.fib]
  | 1 => by
    rw [pow_one]
    norm_num [Nat.fib]
    exact le_of_lt ((gold_lt_two).trans_le (by norm_num))
  | (n + 2) => by
    have ih1 := goldPowLeFib n
    have ih2 := goldPowLeFib (n + 1)
    have hfib : (Nat.fib (n + 4) : ℝ) = Nat.fib (n + 3) + Nat.fib (n + 2) := by
      have h := Nat.fib_add_two (n := n + 2)
      push_cast [h]
      ring
    have hpow : φ ^ (n + 2) = φ ^ (n + 1) + φ ^ n := by
      have h2 : φ ^ (n + 2) = φ ^ n * φ ^ 2 := by ring
      rw [h2, gold_sq]
      ring
    rw [show n + 2 + 2 = n + 4 from rfl, hfib, hpow]
    exact add_le_add ih2 ih1

/-- From the Fibonacci size bound to the claimed ceiling bound:
if `fib (h + 2) ≤ N + 1` then `h ≤ ⌈1.442 · log₂ (N + 2)⌉`. -/
theorem fib_le_ceil_logb (N h : ℕ) (hfib : Nat.fib (h + 2) ≤ N + 1) :
    (h : ℤ) ≤ ⌈(1.442 : ℝ) * Real.logb 2 ((N : ℝ) + 2)⌉ := by
  have h1 : φ ^ h ≤ ((N : ℝ) + 2) := by
    calc φ ^ h ≤ (Nat.fib (h + 2) : ℝ) := goldPowLeFib h
    _ ≤ (N : ℝ) + 1 := by exact_mod_cast hfib
    _ ≤ (N : ℝ) + 2 := by linarith
  have h2 : (h : ℝ) * Real.logb 2 φ ≤ Real.logb 2 ((N : ℝ) + 2) := by
    calc (h : ℝ) * Real.logb 2 φ = Real.logb 2 (φ ^ h) := (Real.logb_pow 2 φ h).symm
    _ ≤ _ := Real.logb_le_logb_of_le (by norm_num) (by positivity) h1
  have h4 : (h : ℝ) * (500 / 721) ≤ Real.logb 2 ((N : ℝ) + 2) := by
    have hm := mul_le_mul_of_nonneg_left logbGold
      (show (0 : ℝ) ≤ h from Nat.cast_nonneg h)
    linarith
  have h3 : (h : ℝ) ≤ 1.442 * Real.logb 2 ((N : ℝ) + 2) := by linarith
  have h5 := Int.le_ceil ((1.442 : ℝ) * Real.logb 2 ((N : ℝ) + 2))
  exact_mod_cast h3.trans h5

/-! ## Claim theorems -/

/-- C1, counterexample: the claimed zone table is false on the code.  With
`failure_magnitude = 0.374 * 24 - 12 = -3.024 < -3`, drift `0.374` lands in
the AI-stress branch, not GREEN; and `0.375 * 24 - 12 = -3` exactly, which is
not `< -3`, so `0.375` lands in the GREEN branch, not AI_STRESS. -/
theorem C1_counterexample :
    driftZone 0.374 ≠ FailureZone.green ∧
    driftZone 0.375 ≠ FailureZone.ai_stress := by
  have h1 : (0.374 : ℚ) * 24 - 12 < -3 := by norm_num
  have h2 : ¬((0.375 : ℚ) * 24 - 12 < -3) := by norm_num
  have h3 : ¬((0.375 : ℚ) * 24 - 12 > 3) := by norm_num
  constructor
  · simp [driftZone, h1]
  · simp [driftZone, h2, h3]

/-- C1, amended: the zone boundaries are `0.374 → AI_STRESS`,
`0.375 → GREEN`, `0.625 → GREEN`, `0.626 → HUMAN_STRESS`, together with the
corresponding observable effects of `obivox_handle_drift` (tree mode,
cascade flag, coherence threshold). -/
theorem C1_zone_boundaries :
    driftZone 0.374 = FailureZone.ai_stress ∧
    driftZone 0.375 = FailureZone.green ∧
    driftZone 0.625 = FailureZone.green ∧
    driftZone 0.626 = FailureZone.human_stress ∧
    (obivox_handle_drift obivox_nlm_init 0.374).1.current_tree_mode = TreeMode.rb ∧
    (obivox_handle_drift obivox_nlm_init 0.374).2 = true ∧
    (obivox_handle_drift obivox_nlm_init 0.374).1.coherence_threshold = 0.85 ∧
    (obivox_handle_drift obivox_nlm_init 0.375).1.current_tree_mode = TreeMode.hybrid ∧
    (obivox_handle_drift obivox_nlm_init 0.375).1.coherence_threshold = 0.954 ∧
    (obivox_handle_drift obivox_nlm_init 0.625).1.current_tree_mode = TreeMode.hybrid ∧
    (obivox_handle_drift obivox_nlm_init 0.626).1.current_tree_mode = TreeMode.avl ∧
    (obivox_handle_drift obivox_nlm_init 0.626).2 = false := by
  have h374a : (0.374 : ℚ) * 24 - 12 < -3 := by norm_num
  have h375a : ¬((0.375 : ℚ) * 24 - 12 < -3) := by norm_num
  have h375b : ¬((0.375 : ℚ) * 24 - 12 > 3) := by norm_num
  have h625a : ¬((0.625 : ℚ) * 24 - 12 < -3) := by norm_num
  have h625b : ¬((0.625 : ℚ) * 24 - 12 > 3) := by norm_num
  have h626a : ¬((0.626 : ℚ) * 24 - 12 < -3) := by norm_num
  have h626b : (0.626 : ℚ) * 24 - 12 > 3 := by norm_num
  refine ⟨?_, ?_, ?_, ?_, ?_, ?_, ?_, ?_, ?_, ?_, ?_, ?_⟩ <;>
    simp [driftZone, obivox_handle_drift, h374a, h375a, h375b, h625a, h625b,
      h626a, h626b]

/-- C2, counterexample: starting from a fresh system with drift `0.35`
(AI-stress eligible every cycle), `recovery_attempts` goes `0→1→2→3`, but the
fourth cycle neither forces HUMAN_STRESS (the tree mode stays `RB`, the
AI-stress configuration, not `AVL`) nor withholds the cascade flag: the code
has no recovery-cap override of the arithmetic zone. -/
theorem C2_counterexample :
    (driftStep aiDriftSystem).recovery_attempts = 1 ∧
    (driftStep (driftStep aiDriftSystem)).recovery_attempts = 2 ∧
    (driftStep (driftStep (driftStep aiDriftSystem))).recovery_attempts = 3 ∧
    (driftStep (driftStep (driftStep (driftStep
      aiDriftSystem)))).recovery_attempts = 3 ∧
    (obivox_drift_cycle (driftStep (driftStep (driftStep
      aiDriftSystem)))).2 = true ∧
    (driftStep (driftStep (driftStep (driftStep
      aiDriftSystem)))).current_tree_mode ≠ TreeMode.avl ∧
    (driftStep (driftStep (driftStep (driftStep
      aiDriftSystem)))).current_tree_mode = TreeMode.rb := by
  have hgate : (0.35 : ℚ) > 0.3 := by norm_num
  have hz : (0.35 : ℚ) * 24 - 12 < -3 := by norm_num
  have e0 : driftStep aiDriftSystem = aiStressed 1 := by
    simp [driftStep, obivox_drift_cycle, obivox_handle_drift, aiDriftSystem,
      aiStressed, obivox_nlm_init, hgate, hz]
  have e1 : driftStep (aiStressed 1) = aiStressed 2 := by
    simp [driftStep, obivox_drift_cycle, obivox_handle_drift, aiStressed,
      obivox_nlm_init, hgate, hz]
  have e2 : driftStep (aiStressed 2) = aiStressed 3 := by
    simp [driftStep, obivox_drift_cycle, obivox_handle_drift, aiStressed,
      obivox_nlm_init, hgate, hz]
  have e3 : driftStep (aiStressed 3) = aiStressed 3 := by
    simp [driftStep, obivox_drift_cycle, obivox_handle_drift, aiStressed,
      obivox_nlm_init, hgate, hz]
  have e4 : (obivox_drift_cycle (aiStressed 3)).2 = true := by
    simp [obivox_drift_cycle, obivox_handle_drift, aiStressed,
      obivox_nlm_init, hgate, hz]
  rw [e0, e1, e2, e3, e4]
  refine ⟨rfl, rfl, rfl, rfl, rfl, by simp [aiStressed], rfl⟩

/-- C2, amended: on every AI-stress-eligible cycle `should_cascade` is set
`true` unconditionally and the tree switches to Relaxed mode; the
self-healing increment of `recovery_attempts` happens only while
`recovery_attempts < 3` and is skipped once the cap is reached — the cycle
then leaves the counter unchanged and remains in the AI-stress configuration
instead of forcing HUMAN_STRESS. -/
theorem C2_recovery_cap (sys : OBIVoxNLMSystem)
    (hgate : sys.drift_magnitude > 0.3)
    (hzone : driftZone sys.drift_magnitude = FailureZone.ai_stress) :
    (obivox_drift_cycle sys).2 = true ∧
    (obivox_drift_cycle sys).1.current_tree_mode = TreeMode.rb ∧
    (sys.recovery_attempts < 3 →
      (obivox_drift_cycle sys).1.recovery_attempts = sys.recovery_attempts + 1) ∧
    (3 ≤ sys.recovery_attempts →
      (obivox_drift_cycle sys).1.recovery_attempts = sys.recovery_attempts) := by
  have hc : sys.drift_magnitude * 24 - 12 < -3 := by
    by_contra h
    simp only [driftZone] at hzone
    rw [if_neg h] at hzone
    split_ifs at hzone
  unfold obivox_drift_cycle obivox_handle_drift
  rw [if_pos hgate, if_pos hc]
  by_cases hra : sys.recovery_attempts < 3 <;> simp [hra]

/-- Witness for `C2_recovery_cap` at the concrete AI-stress system. -/
theorem C2_recovery_cap_witness :
    aiDriftSystem.drift_magnitude > 0.3 ∧
    driftZone aiDriftSystem.drift_magnitude = FailureZone.ai_stress ∧
    ((obivox_drift_cycle aiDriftSystem).2 = true ∧
      (obivox_drift_cycle aiDriftSystem).1.current_tree_mode = TreeMode.rb ∧
      (aiDriftSystem.recovery_attempts < 3 →
        (obivox_drift_cycle aiDriftSystem).1.recovery_attempts =
          aiDriftSystem.recovery_attempts + 1) ∧
      (3 ≤ aiDriftSystem.recovery_attempts →
        (obivox_drift_cycle aiDriftSystem).1.recovery_attempts =
          aiDriftSystem.recovery_attempts)) :=
  ⟨by norm_num [aiDriftSystem, obivox_nlm_init],
    by norm_num [driftZone, aiDriftSystem, obivox_nlm_init],
    C2_recovery_cap aiDriftSystem (by norm_num [aiDriftSystem, obivox_nlm_init])
      (by norm_num [driftZone, aiDriftSystem, obivox_nlm_init])⟩

/-- C3, counterexample: after an AI-stress drift cycle the system's coherence
threshold is `0.85`, yet the mapper still multiplies by the literal `0.954`:
at variation score `0` it outputs `0.954`, not
`threshold * (1 - 0.1 * 0) = 0.85`.  The claim that the mapper uses the
DriftState's current threshold is false (the function does not even receive
the system). -/
theorem C3_counterexample :
    (obivox_handle_drift obivox_nlm_init 0.35).1.coherence_threshold = 0.85 ∧
    (obivox_map_to_nlm_space (fun _ => 0) zeroFeatures).confidence = 0.954 ∧
    (obivox_map_to_nlm_space (fun _ => 0) zeroFeatures).confidence ≠
      (obivox_handle_drift obivox_nlm_init 0.35).1.coherence_threshold *
        (1 - zeroFeatures.variation_score * 0.1) := by
  have hz : (0.35 : ℚ) * 24 - 12 < -3 := by norm_num
  refine ⟨?_, ?_, ?_⟩ <;>
    simp [obivox_handle_drift, obivox_nlm_init, obivox_map_to_nlm_space,
      zeroFeatures, hz] <;>
    norm_num

/-- C3, amended: for every input feature set the mapper computes the output
confidence as the fixed constant `0.954` times `(1 - 0.1 * variation_score)`,
independently of any drift-state threshold. -/
theorem C3_fixed_confidence_constant (tanh : ℚ → ℚ)
    (features : AudioFeatures) :
    (obivox_map_to_nlm_space tanh features).confidence =
      0.954 * (1 - features.variation_score * 0.1) := rfl

/-- C4, confirmed: with `preservation_factor = 1.0` both normalization passes
are skipped (each is guarded by `preservation_factor < 1.0`), so the call is
the identity on the audio buffer, for every buffer, length, and profile. -/
theorem C4_preservation_one_identity (audio : ℕ → ℚ) (num_samples : ℕ)
    (acc : PhoneticAccessibility) :
    obivox_apply_phonetic_normalization audio num_samples acc 1 = audio := by
  simp [obivox_apply_phonetic_normalization]

/-- C5, code bug: for a 512-sample buffer the detector does not fail — its
only guard is the null-pointer check, so the result is `some _` — and the
`uint32_t` subtraction `num_samples - window_size` wraps to `2^32 - 512`,
so the stutter loop runs and its very first window starts at index `1024`,
past the 512-sample buffer (every visited window start is `≥ 1024`). -/
theorem C5_short_buffer_oob :
    (obivox_detect_speech_variations (some zeroAudio) 512
      (some obivox_nlm_init.accessibility)).isSome = true ∧
    stutterLoopEnd 512 = 2 ^ 32 - 512 ∧
    1024 ∈ stutterWindows 512 ∧
    ∀ i ∈ stutterWindows 512, 1024 ≤ i := by
  refine ⟨rfl, by norm_num [stutterLoopEnd], ?_, ?_⟩
  · exact List.mem_map.2 ⟨0, List.mem_range.2 (by norm_num [stutterWindows, stutterLoopEnd]), by norm_num⟩
  · intro i hi
    rcases List.mem_map.1 hi with ⟨k, _, rfl⟩
    omega

/-- Witness for `C5_short_buffer_oob`'s bounded-quantifier conjunct at the
concrete window start `1024`. -/
theorem C5_short_buffer_oob_witness : 1024 ≤ 1024 :=
  C5_short_buffer_oob.2.2.2 1024 C5_short_buffer_oob.2.2.1

/-- C6, counterexample: with a 1024-sample buffer and the stutter flag set,
the claim predicts every sample outside a 256-sample margin is replaced by
the blend — in particular index 300, where the blend value differs from the
original — but the code's loop runs over `[512, num_samples - 512)`, which is
empty here, and leaves the sample unchanged: the untouched margin is a full
512-sample window, not a 256-sample half-window. -/
theorem C6_counterexample :
    obivox_apply_phonetic_normalization onesAudio 1024 stutterOnlyProfile
      0.5 300 = onesAudio 300 ∧
    specStutterBlend onesAudio 0.5 300 ≠ onesAudio 300 ∧
    (256 ≤ 300 ∧ 300 < 1024 - 256) := by
  refine ⟨?_, ?_, by norm_num⟩
  · rw [normalization_stutterOnly onesAudio 1024 0.5 (by norm_num)]
    have he : stutterEnd32 1024 - 512 = 0 := by norm_num [stutterEnd32]
    simp [stutterPass, he]
  · have hw : windowAvg onesAudio 300 = 513 / 512 := by
      simp only [windowAvg, onesAudio]
      rw [sum_map_one 513]
      norm_num
    simp only [specStutterBlend, hw, onesAudio]
    norm_num

/-- C6, amended: with the stutter flag set and `preservation_factor < 1`
(and the lisp flag clear, isolating the stutter stage), the normalizer never
modifies any sample within a full 512-sample window margin at either end of
the buffer, and replaces the first interior sample (index 512) with the
blend `factor * original + (1 - factor) * moving_average_512`. -/
theorem C6_stutter_margin (audio : ℕ → ℚ) (n : ℕ) (pf : ℚ)
    (hpf : pf < 1) (h1 : 1025 ≤ n) (h2 : n < 2 ^ 32) :
    (∀ k, k < 512 →
      obivox_apply_phonetic_normalization audio n stutterOnlyProfile pf k =
        audio k) ∧
    (∀ k, n - 512 ≤ k →
      obivox_apply_phonetic_normalization audio n stutterOnlyProfile pf k =
        audio k) ∧
    obivox_apply_phonetic_normalization audio n stutterOnlyProfile pf 512 =
      specStutterBlend audio pf 512 := by
  rw [normalization_stutterOnly audio n pf hpf]
  refine ⟨fun k hk => ?_, fun k hk => ?_, ?_⟩
  · exact stutterPass_frame audio n pf k (Or.inl hk)
  · exact stutterPass_frame audio n pf k
      (Or.inr (by rw [stutterEnd32_eq (by omega) h2]; omega))
  · exact stutterPass_first audio n pf h1 h2

/-- Witness for `C6_stutter_margin` at `n = 1025`, the constant-one buffer
and `preservation_factor = 1/2`. -/
theorem C6_stutter_margin_witness :
    (0.5 : ℚ) < 1 ∧ 1025 ≤ 1025 ∧ (1025 : ℕ) < 2 ^ 32 ∧
    obivox_apply_phonetic_normalization onesAudio 1025 stutterOnlyProfile
      0.5 511 = onesAudio 511 ∧
    obivox_apply_phonetic_normalization onesAudio 1025 stutterOnlyProfile
      0.5 513 = onesAudio 513 ∧
    obivox_apply_phonetic_normalization onesAudio 1025 stutterOnlyProfile
      0.5 512 = specStutterBlend onesAudio 0.5 512 :=
  ⟨by norm_num, le_refl _, by norm_num,
    (C6_stutter_margin onesAudio 1025 0.5 (by norm_num) (le_refl _)
      (by norm_num)).1 511 (by norm_num),
    (C6_stutter_margin onesAudio 1025 0.5 (by norm_num) (le_refl _)
      (by norm_num)).2.1 513 (by norm_num),
    (C6_stutter_margin onesAudio 1025 0.5 (by norm_num) (le_refl _)
      (by norm_num)).2.2⟩

/-- C7, confirmed: feedback with a supplied (non-null) correction nudges
`y` by `+0.1` and `z` by `+0.05`, each clamped to at most `1.0`, leaves `x`
and the confidence alone, and resets `drift_magnitude` and
`recovery_attempts` to `0`; without a correction the coordinate is untouched
but the drift bookkeeping is still reset.  From `y = 0.9`, `z = 0.99` one
incorporation with a correction yields `y = 1` and `z = 1`. -/
theorem C7_feedback_incorporation :
    (∀ (sys : OBIVoxNLMSystem) (rc : Bool) (ct : ℚ) (oi : Option String)
        (s : String),
      (obivox_incorporate_feedback sys
          ⟨rc, ct, some s, oi⟩).current_position.y_axis =
        min (sys.current_position.y_axis + 0.1) 1 ∧
      (obivox_incorporate_feedback sys
          ⟨rc, ct, some s, oi⟩).current_position.z_axis =
        min (sys.current_position.z_axis + 0.05) 1 ∧
      (obivox_incorporate_feedback sys
          ⟨rc, ct, some s, oi⟩).current_position.x_axis =
        sys.current_position.x_axis ∧
      (obivox_incorporate_feedback sys
          ⟨rc, ct, some s, oi⟩).current_position.confidence =
        sys.current_position.confidence ∧
      (obivox_incorporate_feedback sys ⟨rc, ct, some s, oi⟩).drift_magnitude = 0 ∧
      (obivox_incorporate_feedback sys ⟨rc, ct, some s, oi⟩).recovery_attempts = 0) ∧
    (∀ (sys : OBIVoxNLMSystem) (rc : Bool) (ct : ℚ) (oi : Option String),
      (obivox_incorporate_feedback sys ⟨rc, ct, none, oi⟩).current_position =
        sys.current_position ∧
      (obivox_incorporate_feedback sys ⟨rc, ct, none, oi⟩).drift_magnitude = 0 ∧
      (obivox_incorporate_feedback sys ⟨rc, ct, none, oi⟩).recovery_attempts = 0) ∧
    ((obivox_incorporate_feedback c7System
        ⟨true, 0.954, some "correction", some "orig"⟩).current_position.y_axis = 1 ∧
      (obivox_incorporate_feedback c7System
        ⟨true, 0.954, some "correction", some "orig"⟩).current_position.z_axis = 1) := by
  refine ⟨fun sys rc ct oi s => ?_, fun sys rc ct oi => ?_,
    by norm_num [obivox_incorporate_feedback, c7System, obivox_nlm_init]⟩
  · unfold obivox_incorporate_feedback
    refine ⟨?_, ?_, rfl, rfl, rfl, rfl⟩ <;>
      · simp only [min_def]
        split_ifs <;> first | rfl | linarith
  · exact ⟨rfl, rfl, rfl⟩

/-- C8, confirmed: the escalation gate sets `requires_confirmation` exactly
when the confidence is strictly below `0.85`; at `0.84` it requests
confirmation (and returns `1`), at `0.86` it does not (and returns `0`). -/
theorem C8_confirmation_gate :
    (∀ (t : String) (c : ℚ),
      (obivox_request_human_validation t c).1.requires_confirmation = true ↔
        c < 0.85) ∧
    (obivox_request_human_validation "t" 0.84).1.requires_confirmation = true ∧
    (obivox_request_human_validation "t" 0.86).1.requires_confirmation = false ∧
    (obivox_request_human_validation "t" 0.84).2 = 1 ∧
    (obivox_request_human_validation "t" 0.86).2 = 0 := by
  have h84 : (0.84 : ℚ) < 0.85 := by norm_num
  have h86 : ¬((0.86 : ℚ) < 0.85) := by norm_num
  refine ⟨fun t c => ?_, ?_, ?_, ?_, ?_⟩ <;>
    simp [obivox_request_human_validation, h84, h86]

/-- C9, confirmed against the spec-modelled tree: Strict (AVL) mode — after
every sequence of `N` inserts into the empty tree, the height never exceeds
`⌈1.442 · log₂ (N + 2)⌉`; Relaxed (red-black) mode — after every insert
sequence, no red node has a red child (so no root-to-leaf path has two
consecutive red nodes) and every node's two subtrees have equal black-height
(`blackHeight` is defined). -/
theorem C9_tree_invariants :
    (∀ ks : List ℕ, ((AVL.insertList ks).height : ℤ) ≤
      ⌈(1.442 : ℝ) * Real.logb 2 ((ks.length : ℝ) + 2)⌉) ∧
    (∀ ks : List ℕ,
      RBT.noRedRed (RBT.rbInsertList ks) = true ∧
      (RBT.blackHeight (RBT.rbInsertList ks)).isSome = true) := by
  constructor
  · intro ks
    have h1 := AVL.insertList_aux ks .leaf rfl
    have h2 : Nat.fib ((AVL.insertList ks).height + 2) ≤
        (AVL.insertList ks).size + 1 :=
      AVL.fib_height_le_size _ h1.1
    have h3 : (AVL.insertList ks).size ≤ ks.length := by
      have h4 := h1.2
      simpa [AVL.size] using h4
    exact fib_le_ceil_logb ks.length _ (by omega)
  · intro ks
    obtain ⟨m, hm⟩ := RBT.rbInsertList_aux ks .nil 0 (RBT.RB.nil .black)
    have hp := RBT.rb_paths hm
    refine ⟨hp.1, ?_⟩
    have h2 := hp.2
    rw [show RBT.rbInsertList ks = ks.foldl (fun t x => RBT.rbInsert x t) .nil
      from rfl]
    rw [h2]
    rfl

/-- C10, confirmed: the detector only ever ORs the lisp and stutter flags
with their trigger conditions (it never clears them), and since
initialization sets both flags, every state reachable by any sequence of
detector calls has both flags set — the lisp and stutter normalization
branches stay enabled regardless of the audio. -/
theorem C10_flags_always_set :
    (∀ (a : ℕ → ℚ) (n : ℕ) (acc : PhoneticAccessibility),
      acc.lisp_mitigation ≤ (detectCore a n acc).accessibility.lisp_mitigation ∧
      acc.stutter_detection ≤
        (detectCore a n acc).accessibility.stutter_detection) ∧
    (∀ inputs : List ((ℕ → ℚ) × ℕ),
      (flagsAfter inputs).lisp_mitigation = true ∧
      (flagsAfter inputs).stutter_detection = true) := by
  constructor
  · intro a n acc
    constructor
    · rw [(detectCore_flags a n acc).1]
      cases acc.lisp_mitigation <;> simp
    · rw [(detectCore_flags a n acc).2]
      cases acc.stutter_detection <;> simp
  · intro inputs
    exact flagsAfter_aux inputs obivox_nlm_init.accessibility rfl rfl

end Obivox
